import Mathlib

set_option maxHeartbeats 1000000

namespace Regex

/-- Abstract syntax tree of the regex language (module `Ast` of the source).
An atom's value is either one character or the empty string (epsilon). -/
inductive Node where
  | atom (v : String)
  | seq (v : List Node)
  | alt (v : List Node)
  | star (v : Node)
deriving Repr

mutual

def size : Node → Nat
  | .atom _ => 1
  | .seq v => sizeList v + 1
  | .alt v => sizeList v + 1
  | .star x => size x + 1

def sizeList : List Node → Nat
  | [] => 0
  | x :: xs => size x + sizeList xs

end

theorem size_pos (t : Node) : 1 ≤ size t := by
  cases t <;> simp only [size] <;> omega

mutual

/-- The source's `simplify`, with the size bound carried in the result so that
the source's nested call `simplify(node.v[0])` (on an already-simplified child
of a singleton sequence) is well-founded. -/
def simplifyS : (t : Node) → { r : Node // size r ≤ size t }
  | .atom v => ⟨.atom v, Nat.le_refl _⟩
  | .seq v =>
    match simplifySList v with
    | ⟨[], _⟩ => ⟨.atom "", by simp only [size, sizeList]; omega⟩
    | ⟨[x], h⟩ =>
      ⟨(simplifyS x).1, by
        have h2 := (simplifyS x).2
        simp only [size, sizeList] at *
        omega⟩
    | ⟨a :: b :: l, h⟩ => ⟨.seq (a :: b :: l), by simp only [size]; omega⟩
  | .alt v =>
    match simplifySList v with
    | ⟨l, h⟩ => ⟨.alt l, by simp only [size]; omega⟩
  | .star x =>
    match simplifyS x with
    | ⟨.star y, h⟩ => ⟨y, by simp only [size] at h ⊢; omega⟩
    | ⟨.atom a, h⟩ => ⟨.star (.atom a), by simp only [size] at h ⊢; omega⟩
    | ⟨.seq l, h⟩ => ⟨.star (.seq l), by simp only [size] at h ⊢; omega⟩
    | ⟨.alt l, h⟩ => ⟨.star (.alt l), by simp only [size] at h ⊢; omega⟩
termination_by t => 2 * size t
decreasing_by
  all_goals simp only [size, sizeList] at *
  all_goals omega

def simplifySList : (l : List Node) → { r : List Node // sizeList r ≤ sizeList l }
  | [] => ⟨[], Nat.le_refl _⟩
  | x :: xs =>
    ⟨(simplifyS x).1 :: (simplifySList xs).1, by
      have h1 := (simplifyS x).2
      have h2 := (simplifySList xs).2
      simp only [sizeList]
      omega⟩
termination_by l => 2 * sizeList l + 1
decreasing_by
  all_goals simp only [size, sizeList] at *
  all_goals (first | omega | (have hsp := size_pos x; omega))

end

def simplify (t : Node) : Node := (simplifyS t).1

def simplifyList (l : List Node) : List Node := (simplifySList l).1

theorem size_simplify_le (t : Node) : size (simplify t) ≤ size t := (simplifyS t).2

theorem simplifyList_nil : simplifyList [] = [] := by
  simp [simplifyList, simplifySList]

theorem simplifyList_cons (x : Node) (xs : List Node) :
    simplifyList (x :: xs) = simplify x :: simplifyList xs := by
  simp [simplifyList, simplifySList, simplify]

theorem simplifyList_eq_map (l : List Node) : simplifyList l = l.map simplify := by
  induction l with
  | nil => simp [simplifyList_nil]
  | cons x xs ih => simp [simplifyList_cons, ih]

theorem simplify_atom (v : String) : simplify (.atom v) = .atom v := by
  simp [simplify, simplifyS]

theorem simplify_alt (v : List Node) : simplify (.alt v) = .alt (v.map simplify) := by
  rw [show Node.alt (v.map simplify) = .alt (simplifyList v) by rw [simplifyList_eq_map]]
  simp only [simplify, simplifyS, simplifyList]

theorem simplify_star_cases (x : Node) :
    simplify (Node.star x) =
      (match simplify x with
       | Node.star y => y
       | r => Node.star r) := by
  simp only [simplify, simplifyS]
  rcases h : simplifyS x with ⟨r, hr⟩
  cases r <;> simp

theorem simplify_seq_cases (v : List Node) :
    simplify (Node.seq v) =
      (match v.map simplify with
       | [] => Node.atom ""
       | [x] => simplify x
       | l => Node.seq l) := by
  rw [show v.map simplify = simplifyList v from (simplifyList_eq_map v).symm]
  simp only [simplify, simplifyS, simplifyList]
  rcases h : simplifySList v with ⟨l, hl⟩
  cases l with
  | nil => simp
  | cons a l' =>
    cases l' <;> simp

def notStar : Node → Bool
  | .star _ => false
  | _ => true

mutual

/-- The canonical-form invariant of simplified ASTs: every sequence node has at
least two children and no star node has a star node as its direct child. -/
def canonical : Node → Bool
  | .atom _ => true
  | .seq v => decide (2 ≤ v.length) && canonicalList v
  | .alt v => canonicalList v
  | .star x => notStar x && canonical x

def canonicalList : List Node → Bool
  | [] => true
  | x :: xs => canonical x && canonicalList xs

end

theorem canonicalList_iff (l : List Node) :
    canonicalList l = true ↔ ∀ x ∈ l, canonical x = true := by
  induction l with
  | nil => simp [canonicalList]
  | cons x xs ih => simp [canonicalList, ih]

theorem size_le_sizeList {c : Node} {v : List Node} (h : c ∈ v) : size c ≤ sizeList v := by
  induction v with
  | nil => cases h
  | cons x xs ih =>
    rcases List.mem_cons.mp h with h | h
    · subst h; simp only [sizeList]; omega
    · have := ih h; simp only [sizeList]; omega

theorem canonical_simplify_bounded :
    ∀ n t, size t ≤ n → canonical (simplify t) = true := by
  intro n
  induction n with
  | zero => intro t ht; have := size_pos t; omega
  | succ n ih =>
    intro t ht
    cases t with
    | atom v => simp [simplify_atom, canonical]
    | alt v =>
      rw [simplify_alt]
      simp only [canonical, canonicalList_iff]
      intro x hx
      rw [List.mem_map] at hx
      obtain ⟨c, hc, rfl⟩ := hx
      have hsz : size c ≤ n := by
        have h1 := size_le_sizeList hc
        simp only [size] at ht
        omega
      exact ih c hsz
    | star x =>
      have hxn : size x ≤ n := by simp only [size] at ht; omega
      have hx : canonical (simplify x) = true := ih x hxn
      rw [simplify_star_cases]
      cases hs : simplify x with
      | star y =>
        rw [hs] at hx
        simp only [canonical, Bool.and_eq_true] at hx
        exact hx.2
      | atom a => simp [canonical, notStar]
      | seq l =>
        rw [hs] at hx
        simp only [canonical, notStar, Bool.and_eq_true] at hx ⊢
        exact ⟨trivial, hx⟩
      | alt l =>
        rw [hs] at hx
        simp only [canonical, notStar, Bool.and_eq_true]
        exact ⟨trivial, hx⟩
    | seq v =>
      have hchild : ∀ c ∈ v, canonical (simplify c) = true := by
        intro c hc
        have h1 := size_le_sizeList hc
        simp only [size] at ht
        exact ih c (by omega)
      rw [simplify_seq_cases]
      cases hm : v.map simplify with
      | nil => simp [canonical]
      | cons a l' =>
        cases l' with
        | nil =>
          have hv : ∃ c, v = [c] ∧ simplify c = a := by
            cases v with
            | nil => simp at hm
            | cons c cs =>
              cases cs with
              | nil => simp at hm; exact ⟨c, rfl, hm⟩
              | cons d ds => simp at hm
          obtain ⟨c, hv, ha⟩ := hv
          subst hv
          have hsz : size a ≤ n := by
            have h1 := size_simplify_le c
            rw [ha] at h1
            simp only [size, sizeList] at ht
            have := size_pos c
            omega
          exact ih a hsz
        | cons b l'' =>
          simp only [canonical, Bool.and_eq_true, decide_eq_true_eq, canonicalList_iff]
          constructor
          · simp
          · intro x hx
            have : x ∈ v.map simplify := by rw [hm]; exact hx
            rw [List.mem_map] at this
            obtain ⟨c, hc, rfl⟩ := this
            exact hchild c hc

theorem simplify_of_canonical_bounded :
    ∀ n t, size t ≤ n → canonical t = true → simplify t = t := by
  intro n
  induction n with
  | zero => intro t ht; have := size_pos t; omega
  | succ n ih =>
    intro t ht hc
    cases t with
    | atom v => exact simplify_atom v
    | alt v =>
      rw [simplify_alt]
      simp only [canonical, canonicalList_iff] at hc
      have hmap : v.map simplify = v := by
        rw [show v.map simplify = v ↔ v.map simplify = v.map id by rw [List.map_id]]
        apply List.map_congr_left
        intro c hcv
        have h1 := size_le_sizeList hcv
        simp only [size] at ht
        exact ih c (by omega) (hc c hcv)
      rw [hmap]
    | star x =>
      simp only [canonical, Bool.and_eq_true] at hc
      have hx : simplify x = x := by
        apply ih x _ hc.2
        simp only [size] at ht
        omega
      rw [simplify_star_cases, hx]
      cases x with
      | star y => simp [notStar] at hc
      | atom a => rfl
      | seq l => rfl
      | alt l => rfl
    | seq v =>
      simp only [canonical, Bool.and_eq_true, decide_eq_true_eq, canonicalList_iff] at hc
      have hmap : v.map simplify = v := by
        rw [show v.map simplify = v ↔ v.map simplify = v.map id by rw [List.map_id]]
        apply List.map_congr_left
        intro c hcv
        have h1 := size_le_sizeList hcv
        simp only [size] at ht
        exact ih c (by omega) (hc.2 c hcv)
      rw [simplify_seq_cases, hmap]
      obtain ⟨hlen, -⟩ := hc
      cases v with
      | nil => simp at hlen
      | cons a l' =>
        cases l' with
        | nil => simp at hlen
        | cons b l'' => rfl

theorem canonical_simplify (t : Node) : canonical (simplify t) = true :=
  canonical_simplify_bounded (size t) t (Nat.le_refl _)

theorem simplify_of_canonical {t : Node} (h : canonical t = true) : simplify t = t :=
  simplify_of_canonical_bounded (size t) t (Nat.le_refl _) h

/-- C1: the claim says simplify(Star(Star(x))) equals simplify(Star(x)) and in
particular never removes the repetition entirely.  Evaluating the code at
x = Atom "a" shows the star-collapse branch returns the inner star's child, so
the double star simplifies to the bare atom while the single star stays a star:
the two results differ and the repetition is removed entirely. -/
theorem claim_C1_star_collapse_drops_star :
    simplify (Node.star (Node.star (Node.atom "a"))) = Node.atom "a" ∧
    simplify (Node.star (Node.atom "a")) = Node.star (Node.atom "a") := by
  have h1 : simplify (Node.star (Node.atom "a")) = Node.star (Node.atom "a") := by
    rw [simplify_star_cases, simplify_atom]
  refine ⟨?_, h1⟩
  rw [simplify_star_cases, h1]

/-- C6: for every AST t, simplify(t) satisfies the invariant that every
Sequence node has at least 2 children and no Star node has a Star node as its
direct child. -/
theorem claim_C6_simplify_canonical (t : Node) : canonical (simplify t) = true :=
  canonical_simplify t

/-- C7: simplify is idempotent: simplifying a simplified AST yields a
structurally identical AST. -/
theorem claim_C7_simplify_idempotent (t : Node) : simplify (simplify t) = simplify t :=
  simplify_of_canonical (canonical_simplify t)

/-- C8: simplify never collapses an Alternation: a singleton alternation is
rebuilt around its simplified child, never replaced by the child. -/
theorem claim_C8_alt_singleton_kept (x : Node) :
    simplify (Node.alt [x]) = Node.alt [simplify x] := by
  rw [simplify_alt]
  rfl

/-- The source's recursive scanner `p`.  The mutable scan position becomes the
list `rest` of characters not yet consumed; a successful scope returns the
suffix starting at the `)` that closed it (the caller then skips that `)`)
together with the scope's node.  The per-scope mutable state becomes the
parameters `node` (the last node built), `seq` (the sequence being
accumulated) and `alt` (the earlier alternatives of the scope; the source's
`alt.v` is `alt ++ [seq]`).  Recursion is paid for by `fuel`; `parse` supplies
the input length, which is enough because every recursive call strictly
shrinks the remaining input, so exhausted fuel coincides with the exhausted
scan and yields the source's end-of-input error.  JavaScript's
`seq.v[seq.v.length - 1] = node` on an empty array is a no-op for the array
contents, which `List.set` on `[]` reproduces. -/
def p : Nat → List Char → Option Node → List Node → List (List Node) →
    Except String (List Char × Node)
  | 0, _, _, _, _ => .error "termination too early"
  | _ + 1, [], _, _, _ => .error "termination too early"
  | fuel + 1, c :: cs, node, seq, alt =>
    if c = '(' then
      match p fuel cs none [] [] with
      | .error e => .error e
      | .ok (r, n) => p fuel r.tail (some n) (seq ++ [n]) alt
    else if c = ')' then
      if 1 < (alt ++ [seq]).length then
        .ok (c :: cs, Node.alt ((alt ++ [seq]).map Node.seq))
      else if 1 < seq.length then
        .ok (c :: cs, Node.seq seq)
      else
        match node with
        | some n => .ok (c :: cs, n)
        | none => .error "empty parens"
    else if c = '*' then
      match node with
      | some n => p fuel cs (some (Node.star n)) (seq.set (seq.length - 1) (Node.star n)) alt
      | none => .error "star without thing"
    else if c = '|' then
      p fuel cs node [] (alt ++ [seq])
    else
      p fuel cs (some (Node.atom (String.mk [c]))) (seq ++ [Node.atom (String.mk [c])]) alt

/-- The source's `parse`: append the implicit `)` terminator, run `p` from the
start, require that the scan stopped exactly at the appended `)` (the returned
suffix has length 1, i.e. `lastPosition === s.length - 1`), then simplify. -/
def parse (str : String) : Except String Node :=
  match p (str.data ++ [')']).length (str.data ++ [')']) none [] [] with
  | .error e => .error e
  | .ok (r, n) =>
    if r.length = 1 then .ok (simplify n) else .error "not everything consumed"

/-- C10: the empty pattern is rejected with the empty-parens error (the
implicitly appended `)` closes a top-level scope that accumulated no term),
rather than returning an epsilon AST. -/
theorem claim_C10_empty_pattern_rejected : parse "" = .error "empty parens" := by
  simp [parse, p]

/-- C2: the claim says any `*` with no preceding term in the current
alternative is rejected, including a `*` immediately after `|`.  Evaluating
the code on "a|*b" shows otherwise: `node` is not reset at `|`, so the star is
built from the stale node and written to index -1 of the empty current
sequence (a JavaScript no-op), and the pattern parses successfully as the
alternation of "a" and "b" with the star silently discarded. -/
theorem claim_C2_star_after_bar_accepted :
    parse "a|*b" = .ok (Node.alt [Node.atom "a", Node.atom "b"]) := by
  simp [parse, p, simplify_alt, simplify_seq_cases, simplify_atom]

/-- Depth scan of a character list: `(` opens, `)` closes; returns `none` if a
`)` is met at depth 0, otherwise the final depth. -/
def scanDepth : List Char → Nat → Option Nat
  | [], d => some d
  | c :: cs, d =>
    if c = ')' then (if d = 0 then none else scanDepth cs (d - 1))
    else if c = '(' then scanDepth cs (d + 1)
    else scanDepth cs d

/-- Clamped open-parenthesis count: unmatched `)` are ignored, so the final
count is positive exactly when some `(` is never closed. -/
def openCount : List Char → Nat → Nat
  | [], d => d
  | c :: cs, d =>
    if c = ')' then openCount cs (d - 1)
    else if c = '(' then openCount cs (d + 1)
    else openCount cs d

def unmatchedOpen (s : List Char) : Bool := decide (0 < openCount s 0)

theorem scanDepth_append (a b : List Char) (d : Nat) :
    scanDepth (a ++ b) d =
      (match scanDepth a d with
       | some d2 => scanDepth b d2
       | none => none) := by
  induction a generalizing d with
  | nil => simp [scanDepth]
  | cons c cs ih =>
    simp only [List.cons_append, scanDepth]
    by_cases h1 : c = ')'
    · rw [if_pos h1, if_pos h1]
      by_cases hd : d = 0
      · rw [if_pos hd, if_pos hd]
      · rw [if_neg hd, if_neg hd]; exact ih _
    · rw [if_neg h1, if_neg h1]
      by_cases h2 : c = '('
      · rw [if_pos h2, if_pos h2]; exact ih _
      · rw [if_neg h2, if_neg h2]; exact ih _

theorem scanDepth_shift (l : List Char) :
    ∀ d d', scanDepth l d = some d' → scanDepth l (d + 1) = some (d' + 1) := by
  induction l with
  | nil => intro d d' h; simp [scanDepth] at h ⊢; omega
  | cons c cs ih =>
    intro d d' h
    simp only [scanDepth] at h ⊢
    by_cases h1 : c = ')'
    · rw [if_pos h1] at h ⊢
      by_cases hd : d = 0
      · rw [if_pos hd] at h; exact absurd h (by simp)
      · rw [if_neg hd] at h
        rw [if_neg (by omega : ¬d + 1 = 0)]
        have he : d + 1 - 1 = (d - 1) + 1 := by omega
        rw [he]
        exact ih _ _ h
    · rw [if_neg h1] at h ⊢
      by_cases h2 : c = '('
      · rw [if_pos h2] at h ⊢
        exact ih _ _ h
      · rw [if_neg h2] at h ⊢
        exact ih _ _ h

theorem openCount_of_scanDepth (l : List Char) :
    ∀ d d', scanDepth l d = some d' → openCount l d = d' := by
  induction l with
  | nil => intro d d' h; simp [scanDepth] at h; simp [openCount, h]
  | cons c cs ih =>
    intro d d' h
    simp only [scanDepth] at h
    simp only [openCount]
    by_cases h1 : c = ')'
    · rw [if_pos h1] at h ⊢
      by_cases hd : d = 0
      · rw [if_pos hd] at h; exact absurd h (by simp)
      · rw [if_neg hd] at h
        exact ih _ _ h
    · rw [if_neg h1] at h ⊢
      by_cases h2 : c = '('
      · rw [if_pos h2] at h ⊢; exact ih _ _ h
      · rw [if_neg h2] at h ⊢; exact ih _ _ h

/-- Whenever a scope of `p` returns successfully, the consumed characters form
a region in which every `(` is matched (the depth scan never closes at depth 0
and returns to 0), and the returned suffix begins with the `)` that closed the
scope. -/
theorem p_spec :
    ∀ (fuel : Nat) (rest : List Char) (node : Option Node) (seq : List Node)
      (alt : List (List Node)) (r : List Char) (n : Node),
      p fuel rest node seq alt = .ok (r, n) →
      ∃ consumed t, rest = consumed ++ r ∧ r = ')' :: t ∧
        scanDepth consumed 0 = some 0 := by
  intro fuel
  induction fuel with
  | zero => intro rest node seq alt r n hp; simp [p] at hp
  | succ fuel ih =>
    intro rest node seq alt r n hp
    cases rest with
    | nil => simp [p] at hp
    | cons c cs =>
      simp only [p] at hp
      by_cases hc1 : c = '('
      · rw [if_pos hc1] at hp
        cases h1 : p fuel cs none [] [] with
        | error e => rw [h1] at hp; simp at hp
        | ok v1 =>
          obtain ⟨r1, n1⟩ := v1
          rw [h1] at hp
          simp only at hp
          obtain ⟨c1, t1, hcs, hr1e, hs1⟩ := ih cs none [] [] r1 n1 h1
          obtain ⟨c2, t2, ht1e, hr2e, hs2⟩ := ih r1.tail (some n1) (seq ++ [n1]) alt r n hp
          have ht1 : r1.tail = t1 := by rw [hr1e]; rfl
          refine ⟨c :: c1 ++ ')' :: c2, t2, ?_, hr2e, ?_⟩
          · rw [hcs, hr1e]
            rw [ht1] at ht1e
            rw [ht1e]
            simp
          · rw [hc1]
            have h01 : scanDepth c1 1 = some 1 := scanDepth_shift c1 0 0 hs1
            simp [List.cons_append, scanDepth, scanDepth_append, h01, hs2]
      · rw [if_neg hc1] at hp
        by_cases hc2 : c = ')'
        · rw [if_pos hc2] at hp
          have base : ∀ (m : Node),
              (Except.ok (c :: cs, m) : Except String (List Char × Node)) = Except.ok (r, n) →
              ∃ consumed t, c :: cs = consumed ++ r ∧ r = ')' :: t ∧
                scanDepth consumed 0 = some 0 := by
            intro m hm
            simp only [Except.ok.injEq, Prod.mk.injEq] at hm
            refine ⟨[], cs, ?_, ?_, by simp [scanDepth]⟩
            · rw [← hm.1]; rfl
            · rw [← hm.1, hc2]
          split_ifs at hp with hic1 hic2
          · exact base _ hp
          · exact base _ hp
          · cases node with
            | some n0 => exact base _ hp
            | none => simp at hp
        · rw [if_neg hc2] at hp
          have step : ∀ (node2 : Option Node) (seq2 : List Node) (alt2 : List (List Node)),
              p fuel cs node2 seq2 alt2 = .ok (r, n) →
              ∃ consumed t, c :: cs = consumed ++ r ∧ r = ')' :: t ∧
                scanDepth consumed 0 = some 0 := by
            intro node2 seq2 alt2 hm
            obtain ⟨c1, t1, hcs, hr1e, hs1⟩ := ih cs node2 seq2 alt2 r n hm
            refine ⟨c :: c1, t1, ?_, hr1e, ?_⟩
            · rw [hcs]; rfl
            · simp only [scanDepth]
              rw [if_neg hc2, if_neg hc1]
              exact hs1
          by_cases hc3 : c = '*'
          · rw [if_pos hc3] at hp
            cases node with
            | none => simp at hp
            | some n0 => exact step _ _ _ hp
          · rw [if_neg hc3] at hp
            by_cases hc4 : c = '|'
            · rw [if_pos hc4] at hp
              exact step _ _ _ hp
            · rw [if_neg hc4] at hp
              exact step _ _ _ hp

theorem parse_ok_scanDepth {s : String} {ast : Node} (h : parse s = .ok ast) :
    scanDepth s.data 0 = some 0 := by
  unfold parse at h
  cases hp : p (s.data ++ [')']).length (s.data ++ [')']) none [] [] with
  | error e => rw [hp] at h; simp at h
  | ok v =>
    obtain ⟨r, n⟩ := v
    rw [hp] at h
    by_cases hr : r.length = 1
    · obtain ⟨consumed, t, hsplit, hre, hsc⟩ := p_spec _ _ _ _ _ _ _ hp
      have ht : t = [] := by
        rw [hre] at hr
        simpa using hr
      rw [ht] at hre
      rw [hre] at hsplit
      have hc : s.data = consumed := by
        have h2 : s.data ++ [')'] = consumed ++ [')'] := hsplit
        simpa using h2
      rw [hc]
      exact hsc
    · simp [hr] at h

theorem unmatched_open_parse_fails (s : String) (h : unmatchedOpen s.data = true) :
    ∃ e, parse s = .error e := by
  cases hp : parse s with
  | error e => exact ⟨e, rfl⟩
  | ok ast =>
    exfalso
    have hsc := parse_ok_scanDepth hp
    have h0 := openCount_of_scanDepth s.data 0 0 hsc
    rw [unmatchedOpen, h0] at h
    simp at h

/-- C3: the claim says every pattern with an unmatched opening parenthesis
fails with the unterminated-group ("termination too early") error.  The
concrete input "(" refutes it: parsing does fail, but with the empty-parens
error, because the implicitly appended terminator reaches the still-open and
still-empty scope before the scan can run off the end. -/
theorem claim_C3_counterexample :
    parse "(" = .error "empty parens" ∧ parse "(" ≠ .error "termination too early" := by
  have h1 : parse "(" = .error "empty parens" := by simp [parse, p]
  refine ⟨h1, ?_⟩
  rw [h1]
  simp

/-- C3 (amended): every pattern containing an unmatched opening parenthesis
fails to parse; the error is "termination too early" when the unterminated
scope is nonempty when the scan exhausts the input (e.g. "(a"), but an empty
unterminated scope meets the implicitly appended delimiter and fails with
"empty parens" instead. -/
theorem claim_C3_unmatched_open_fails :
    (∀ s : String, unmatchedOpen s.data = true → ∃ e, parse s = .error e) ∧
    parse "(a" = .error "termination too early" := by
  refine ⟨unmatched_open_parse_fails, ?_⟩
  simp [parse, p]

/-- C3 witness: the amended theorem applied at the concrete pattern "((". -/
theorem claim_C3_witness :
    unmatchedOpen "((".data = true ∧ ∃ e, parse "((" = .error e :=
  ⟨by decide, claim_C3_unmatched_open_fails.1 "((" (by decide)⟩

/-- The NFA as an arena: entry `i` is node `i`'s ordered list of outgoing
edges, each a label (one character, or `""` for epsilon) together with the
target node's index.  The source's `Nfa.Node` objects with reference identity
become indices; `new Nfa.Node()` appends an empty edge list. -/
abbrev Graph := List (List (String × Nat))

/-- A node's outgoing edge list (`n.ds` in the source); absent indices have no
edges. -/
def out (g : Graph) (i : Nat) : List (String × Nat) := g.getD i []

/-- `start.ds.push(new Nfa.Edge(v, t))`. -/
def addEdge (g : Graph) (s : Nat) (v : String) (t : Nat) : Graph :=
  g.set s (out g s ++ [(v, t)])

mutual

/-- The source's `makeEdge`: builds the fragment for `ast` between the nodes
`start` and `stop`, mutating the arena by appending fresh nodes and pushing
edges.  For a sequence the `k - 1` intermediate nodes are allocated before any
child is built, exactly as `range(...).map(_ => new Nfa.Node())` does. -/
def makeEdge : Node → Nat → Nat → Graph → Graph
  | .seq v, start, stop, g =>
    let k := v.length - 1
    let nexts := ((List.range k).map (g.length + ·)) ++ [stop]
    makeSeqEdges v nexts start (g ++ List.replicate k [])
  | .alt v, start, stop, g => makeAltEdges v start stop g
  | .star x, start, stop, g =>
    let middle := g.length
    let g1 := addEdge (g ++ [[]]) start "" middle
    let g2 := makeEdge x middle middle g1
    addEdge g2 middle "" stop
  | .atom v, start, stop, g => addEdge g start v stop

/-- `zip(ast.v, nextNodes)` driving the chained sequence construction. -/
def makeSeqEdges : List Node → List Nat → Nat → Graph → Graph
  | c :: cs, nx :: nxs, last, g => makeSeqEdges cs nxs nx (makeEdge c last nx g)
  | _, _, _, g => g

/-- Alternation: every child is built between the same shared endpoints. -/
def makeAltEdges : List Node → Nat → Nat → Graph → Graph
  | [], _, _, g => g
  | c :: cs, start, stop, g => makeAltEdges cs start stop (makeEdge c start stop g)

end

/-- The source's `makeNfa`: a fresh start node (index 0) and a fresh end node
(index 1), with the AST built between them. -/
def makeNfa (ast : Node) : Graph := makeEdge ast 0 1 [[], []]

/-- The epsilon targets of a node, in edge order. -/
def epsTargets (g : Graph) (n : Nat) : List Nat :=
  ((out g n).filter (fun e => e.1 = "")).map (fun e => e.2)

/-- The source's `addNodeToSet` with explicit fuel for the recursion through
epsilon edges: if the node is new it is appended and its epsilon targets are
added recursively.  `addNodeToSet` runs it with fuel `g.length + 1`, which the
stabilization theorem shows is always enough, because each node enters the
visited set at most once. -/
def addNodeToSetF (g : Graph) : Nat → List Nat → Nat → List Nat
  | 0, set, _ => set
  | fuel + 1, set, n =>
    if n ∈ set then set
    else (epsTargets g n).foldl (addNodeToSetF g fuel) (set ++ [n])

def addNodeToSet (g : Graph) (set : List Nat) (n : Nat) : List Nat :=
  addNodeToSetF g (g.length + 1) set n

/-- The source's `match`: the state set starts as the epsilon closure of the
start node; for each character the next set collects the epsilon closures of
the targets of matching edges; the input is accepted iff the final set holds a
node with no outgoing edges. -/
def matchNfa (g : Graph) (startNode : Nat) (str : String) : Bool :=
  let ns := addNodeToSet g [] startNode
  let fin := str.data.foldl
    (fun ns c => ns.foldl
      (fun newNs n => (out g n).foldl
        (fun acc e => if String.mk [c] = e.1 then addNodeToSet g acc e.2 else acc)
        newNs)
      [])
    ns
  fin.any (fun n => (out g n).isEmpty)

/-- Number of valid node indices not yet in the visited set: the decreasing
measure of the closure recursion. -/
def unvisited (g : Graph) (set : List Nat) : Nat :=
  ((Finset.range g.length).filter (fun i => i ∉ set)).card

theorem unvisited_le (g : Graph) (set : List Nat) : unvisited g set ≤ g.length := by
  have h1 : ((Finset.range g.length).filter (fun i => i ∉ set)).card ≤
      (Finset.range g.length).card := Finset.card_filter_le _ _
  simpa [unvisited, Finset.card_range] using h1

theorem unvisited_mono (g : Graph) {s s' : List Nat} (h : ∀ x ∈ s, x ∈ s') :
    unvisited g s' ≤ unvisited g s := by
  apply Finset.card_le_card
  intro i hi
  simp only [Finset.mem_filter, Finset.mem_range] at hi ⊢
  exact ⟨hi.1, fun hc => hi.2 (h i hc)⟩

theorem unvisited_append_lt (g : Graph) {s : List Nat} {n : Nat}
    (hn : n < g.length) (hns : n ∉ s) :
    unvisited g (s ++ [n]) < unvisited g s := by
  have hsub : (Finset.range g.length).filter (fun i => i ∉ s ++ [n]) ⊆
      (Finset.range g.length).filter (fun i => i ∉ s) := by
    intro i hi
    simp only [Finset.mem_filter, List.mem_append, List.mem_singleton] at hi ⊢
    exact ⟨hi.1, fun hc => hi.2 (Or.inl hc)⟩
  apply Finset.card_lt_card
  rw [Finset.ssubset_iff_of_subset hsub]
  refine ⟨n, ?_, ?_⟩
  · simp only [Finset.mem_filter, Finset.mem_range]
    exact ⟨hn, hns⟩
  · simp

theorem out_ge (g : Graph) {n : Nat} (h : g.length ≤ n) : out g n = [] := by
  unfold out
  rw [List.getD_eq_default]
  omega

theorem epsTargets_ge (g : Graph) {n : Nat} (h : g.length ≤ n) : epsTargets g n = [] := by
  simp [epsTargets, out_ge g h]

theorem mem_addNodeToSetF_of_mem (g : Graph) :
    ∀ fuel set n x, x ∈ set → x ∈ addNodeToSetF g fuel set n := by
  intro fuel
  induction fuel with
  | zero => intro set n x hx; simpa [addNodeToSetF] using hx
  | succ fuel ih =>
    intro set n x hx
    simp only [addNodeToSetF]
    by_cases hn : n ∈ set
    · rw [if_pos hn]; exact hx
    · rw [if_neg hn]
      have hfold : ∀ (ts : List Nat) (s : List Nat), x ∈ s → x ∈ ts.foldl (addNodeToSetF g fuel) s := by
        intro ts
        induction ts with
        | nil => intro s hs; simpa using hs
        | cons t ts iht =>
          intro s hs
          exact iht _ (ih s t x hs)
      exact hfold _ _ (by simp [hx])

theorem addNodeToSetF_stable (g : Graph) :
    ∀ k f1 f2 set n, unvisited g set ≤ k → unvisited g set < f1 → unvisited g set < f2 →
      addNodeToSetF g f1 set n = addNodeToSetF g f2 set n := by
  intro k
  induction k with
  | zero =>
    intro f1 f2 set n hk h1 h2
    obtain ⟨f1', rfl⟩ : ∃ m, f1 = m + 1 := ⟨f1 - 1, by omega⟩
    obtain ⟨f2', rfl⟩ : ∃ m, f2 = m + 1 := ⟨f2 - 1, by omega⟩
    simp only [addNodeToSetF]
    by_cases hn : n ∈ set
    · rw [if_pos hn, if_pos hn]
    · rw [if_neg hn, if_neg hn]
      have hout : g.length ≤ n := by
        by_contra hlt
        push_neg at hlt
        have := unvisited_append_lt g hlt hn
        omega
      rw [epsTargets_ge g hout]
      rfl
  | succ k ihk =>
    intro f1 f2 set n hk h1 h2
    obtain ⟨f1', rfl⟩ : ∃ m, f1 = m + 1 := ⟨f1 - 1, by omega⟩
    obtain ⟨f2', rfl⟩ : ∃ m, f2 = m + 1 := ⟨f2 - 1, by omega⟩
    simp only [addNodeToSetF]
    by_cases hn : n ∈ set
    · rw [if_pos hn, if_pos hn]
    · rw [if_neg hn, if_neg hn]
      by_cases hlt : n < g.length
      · have hdec := unvisited_append_lt g hlt hn
        have hfold : ∀ (ts : List Nat) (s : List Nat), (∀ x ∈ set ++ [n], x ∈ s) →
            ts.foldl (addNodeToSetF g f1') s = ts.foldl (addNodeToSetF g f2') s := by
          intro ts
          induction ts with
          | nil => intro s hs; rfl
          | cons t ts iht =>
            intro s hs
            have hus : unvisited g s ≤ unvisited g (set ++ [n]) := unvisited_mono g hs
            have hstep : addNodeToSetF g f1' s t = addNodeToSetF g f2' s t :=
              ihk f1' f2' s t (by omega) (by omega) (by omega)
            simp only [List.foldl_cons]
            rw [← hstep]
            apply iht
            intro x hx
            exact mem_addNodeToSetF_of_mem g f1' s t x (hs x hx)
        exact hfold _ _ (fun x hx => hx)
      · push_neg at hlt
        rw [epsTargets_ge g hlt]
        rfl
  
/-- C9: the matcher is total.  The recursion of `addNodeToSet` through epsilon
edges (including the self-loops produced by star construction) visits each
node at most once, so fuel `g.length + 1` always suffices: giving the closure
computation any more fuel never changes its result, and `match` (a fold over
the input string around these stabilized closures) therefore terminates on
every finite automaton graph and input. -/
theorem claim_C9_addNodeToSet_terminates (g : Graph) (set : List Nat) (n : Nat)
    (fuel : Nat) (h : g.length + 1 ≤ fuel) :
    addNodeToSetF g fuel set n = addNodeToSet g set n := by
  unfold addNodeToSet
  exact addNodeToSetF_stable g (unvisited g set) fuel (g.length + 1) set n (Nat.le_refl _)
    (by have := unvisited_le g set; omega) (by have := unvisited_le g set; omega)

/-- C9 witness: the theorem applied to a one-node graph with an epsilon
self-loop (the shape a star construction produces) and surplus fuel. -/
theorem claim_C9_witness :
    ([(("" : String), 0)] :: ([] : Graph)).length + 1 ≤ 5 ∧
    addNodeToSetF ([(("" : String), 0)] :: ([] : Graph)) 5 [] 0 =
      addNodeToSet ([(("" : String), 0)] :: ([] : Graph)) [] 0 :=
  ⟨by decide, claim_C9_addNodeToSet_terminates _ [] 0 5 (by decide)⟩

theorem unvisited_append_ge (g : Graph) {s : List Nat} {n : Nat} (h : g.length ≤ n) :
    unvisited g (s ++ [n]) = unvisited g s := by
  unfold unvisited
  congr 1
  apply Finset.filter_congr
  intro i hi
  simp only [Finset.mem_range] at hi
  constructor
  · intro hni hc
    exact hni (List.mem_append.mpr (Or.inl hc))
  · intro hni hc
    rcases List.mem_append.mp hc with h' | h'
    · exact hni h'
    · simp at h'
      omega

theorem mem_addNodeToSet_of_mem (g : Graph) (s : List Nat) (n x : Nat) (hx : x ∈ s) :
    x ∈ addNodeToSet g s n := mem_addNodeToSetF_of_mem g _ s n x hx

theorem addNodeToSet_mem (g : Graph) {s : List Nat} {n : Nat} (hn : n ∈ s) :
    addNodeToSet g s n = s := by
  unfold addNodeToSet
  simp [addNodeToSetF, hn]

theorem addNodeToSet_not_mem (g : Graph) {s : List Nat} {n : Nat} (hn : n ∉ s) :
    addNodeToSet g s n = (epsTargets g n).foldl (addNodeToSet g) (s ++ [n]) := by
  unfold addNodeToSet
  conv_lhs => rw [show g.length + 1 = g.length + 1 from rfl]
  simp only [addNodeToSetF]
  rw [if_neg hn]
  by_cases hlt : n < g.length
  · have hdec := unvisited_append_lt g hlt hn
    have hfold : ∀ (ts s' : List Nat), (∀ x ∈ s ++ [n], x ∈ s') →
        ts.foldl (addNodeToSetF g g.length) s' = ts.foldl (addNodeToSet g) s' := by
      intro ts
      induction ts with
      | nil => intro s' _; rfl
      | cons t ts iht =>
        intro s' hs'
        have hu : unvisited g s' ≤ unvisited g (s ++ [n]) := unvisited_mono g hs'
        have hle : unvisited g s ≤ g.length := unvisited_le g s
        have hstep : addNodeToSetF g g.length s' t = addNodeToSet g s' t := by
          unfold addNodeToSet
          exact addNodeToSetF_stable g (unvisited g s') _ _ s' t (Nat.le_refl _)
            (by omega) (by omega)
        simp only [List.foldl_cons]
        rw [hstep]
        apply iht
        intro x hx
        exact mem_addNodeToSet_of_mem g s' t x (hs' x hx)
    exact hfold _ _ (fun x hx => hx)
  · push_neg at hlt
    rw [epsTargets_ge g hlt]
    rfl

theorem mem_addNodeToSet_self (g : Graph) (s : List Nat) (n : Nat) :
    n ∈ addNodeToSet g s n := by
  by_cases hn : n ∈ s
  · rw [addNodeToSet_mem g hn]; exact hn
  · rw [addNodeToSet_not_mem g hn]
    have hfold : ∀ (ts s' : List Nat), n ∈ s' → n ∈ ts.foldl (addNodeToSet g) s' := by
      intro ts
      induction ts with
      | nil => intro s' h; simpa using h
      | cons t ts iht => intro s' h; exact iht _ (mem_addNodeToSet_of_mem g s' t n h)
    exact hfold _ _ (by simp)

/-- One epsilon edge from `a` to `b`. -/
def epsStep (g : Graph) (a b : Nat) : Prop := (("" : String), b) ∈ out g a

/-- Epsilon reachability: the reflexive-transitive closure of epsilon edges. -/
def EpsReach (g : Graph) : Nat → Nat → Prop := Relation.ReflTransGen (epsStep g)

/-- A state set closed under following epsilon edges. -/
def Closed (g : Graph) (s : List Nat) : Prop := ∀ a ∈ s, ∀ b, epsStep g a b → b ∈ s

theorem mem_epsTargets (g : Graph) (n b : Nat) : b ∈ epsTargets g n ↔ epsStep g n b := by
  unfold epsTargets epsStep
  rw [List.mem_map]
  constructor
  · rintro ⟨e, he, rfl⟩
    rw [List.mem_filter] at he
    obtain ⟨he1, he2⟩ := he
    have he3 : e = ("", e.2) := by
      obtain ⟨e1, e2⟩ := e
      simp at he2
      simp [he2]
    exact he3 ▸ he1
  · intro h
    exact ⟨("", b), List.mem_filter.mpr ⟨h, by simp⟩, rfl⟩

theorem addNodeToSet_sound (g : Graph) :
    ∀ k s n x, unvisited g s ≤ k → x ∈ addNodeToSet g s n → x ∈ s ∨ EpsReach g n x := by
  intro k
  induction k with
  | zero =>
    intro s n x hk hx
    by_cases hn : n ∈ s
    · rw [addNodeToSet_mem g hn] at hx; exact Or.inl hx
    · rw [addNodeToSet_not_mem g hn] at hx
      have hout : g.length ≤ n := by
        by_contra hlt
        push_neg at hlt
        have := unvisited_append_lt g hlt hn
        omega
      rw [epsTargets_ge g hout] at hx
      simp only [List.foldl_nil] at hx
      rcases List.mem_append.mp hx with h | h
      · exact Or.inl h
      · simp at h; subst h; exact Or.inr Relation.ReflTransGen.refl
  | succ k ihk =>
    intro s n x hk hx
    by_cases hn : n ∈ s
    · rw [addNodeToSet_mem g hn] at hx; exact Or.inl hx
    · rw [addNodeToSet_not_mem g hn] at hx
      by_cases hlt : n < g.length
      · have hdec := unvisited_append_lt g hlt hn
        have hfold : ∀ (ts s' : List Nat), (∀ t ∈ ts, EpsReach g n t) →
            (∀ y ∈ s', y ∈ s ∨ EpsReach g n y) →
            (∀ y ∈ s ++ [n], y ∈ s') →
            ∀ y ∈ ts.foldl (addNodeToSet g) s', y ∈ s ∨ EpsReach g n y := by
          intro ts
          induction ts with
          | nil =>
            intro s' _ hs' _ y hy
            exact hs' y (by simpa using hy)
          | cons t ts iht =>
            intro s' hts hs' hsup y hy
            simp only [List.foldl_cons] at hy
            refine iht (addNodeToSet g s' t) (fun u hu => hts u (by simp [hu])) ?_ ?_ y hy
            · intro y' hy'
              have hu : unvisited g s' ≤ unvisited g (s ++ [n]) := unvisited_mono g hsup
              rcases ihk s' t y' (by omega) hy' with h | h
              · exact hs' y' h
              · exact Or.inr (Relation.ReflTransGen.trans (hts t (by simp)) h)
            · intro y' hy'
              exact mem_addNodeToSet_of_mem g s' t y' (hsup y' hy')
        refine hfold (epsTargets g n) (s ++ [n]) ?_ ?_ (fun y hy => hy) x hx
        · intro t ht
          exact Relation.ReflTransGen.single ((mem_epsTargets g n t).mp ht)
        · intro y hy
          rcases List.mem_append.mp hy with h | h
          · exact Or.inl h
          · simp at h; subst h; exact Or.inr Relation.ReflTransGen.refl
      · push_neg at hlt
        rw [epsTargets_ge g hlt] at hx
        simp only [List.foldl_nil] at hx
        rcases List.mem_append.mp hx with h | h
        · exact Or.inl h
        · simp at h; subst h; exact Or.inr Relation.ReflTransGen.refl

theorem foldl_cl_closed (g : Graph) :
    ∀ ku (pend : List Nat), ∀ s : List Nat, unvisited g s ≤ ku →
      (∀ a ∈ s, ∀ b, epsStep g a b → b ∈ s ∨ b ∈ pend) →
      Closed g (pend.foldl (addNodeToSet g) s) := by
  intro ku
  induction ku with
  | zero =>
    intro pend
    induction pend with
    | nil =>
      intro s hu hcl a ha b hb
      rcases hcl a ha b hb with h | h
      · exact h
      · simp at h
    | cons t rest ihp =>
      intro s hu hcl
      simp only [List.foldl_cons]
      by_cases ht : t ∈ s
      · rw [addNodeToSet_mem g ht]
        apply ihp s hu
        intro a ha b hb
        rcases hcl a ha b hb with h | h
        · exact Or.inl h
        · rcases List.mem_cons.mp h with h | h
          · subst h; exact Or.inl ht
          · exact Or.inr h
      · by_cases hlt : t < g.length
        · have := unvisited_append_lt g hlt ht
          omega
        · push_neg at hlt
          rw [addNodeToSet_not_mem g ht, epsTargets_ge g hlt]
          simp only [List.foldl_nil]
          apply ihp (s ++ [t]) (by rw [unvisited_append_ge g hlt]; exact hu)
          intro a ha b hb
          rcases List.mem_append.mp ha with ha' | ha'
          · rcases hcl a ha' b hb with h | h
            · exact Or.inl (List.mem_append.mpr (Or.inl h))
            · rcases List.mem_cons.mp h with h | h
              · subst h; exact Or.inl (by simp)
              · exact Or.inr h
          · simp at ha'
            subst ha'
            unfold epsStep at hb
            rw [out_ge g hlt] at hb
            simp at hb
  | succ ku ihk =>
    intro pend
    induction pend with
    | nil =>
      intro s hu hcl a ha b hb
      rcases hcl a ha b hb with h | h
      · exact h
      · simp at h
    | cons t rest ihp =>
      intro s hu hcl
      simp only [List.foldl_cons]
      by_cases ht : t ∈ s
      · rw [addNodeToSet_mem g ht]
        apply ihp s hu
        intro a ha b hb
        rcases hcl a ha b hb with h | h
        · exact Or.inl h
        · rcases List.mem_cons.mp h with h | h
          · subst h; exact Or.inl ht
          · exact Or.inr h
      · by_cases hlt : t < g.length
        · have hdec := unvisited_append_lt g hlt ht
          rw [addNodeToSet_not_mem g ht, ← List.foldl_append]
          apply ihk (epsTargets g t ++ rest) (s ++ [t]) (by omega)
          intro a ha b hb
          rcases List.mem_append.mp ha with ha' | ha'
          · rcases hcl a ha' b hb with h | h
            · exact Or.inl (List.mem_append.mpr (Or.inl h))
            · rcases List.mem_cons.mp h with h | h
              · subst h; exact Or.inl (by simp)
              · exact Or.inr (List.mem_append.mpr (Or.inr h))
          · simp at ha'
            subst ha'
            refine Or.inr (List.mem_append.mpr (Or.inl ?_))
            exact (mem_epsTargets g a b).mpr hb
        · push_neg at hlt
          rw [addNodeToSet_not_mem g ht, epsTargets_ge g hlt]
          simp only [List.foldl_nil]
          apply ihp (s ++ [t]) (by rw [unvisited_append_ge g hlt]; exact hu)
          intro a ha b hb
          rcases List.mem_append.mp ha with ha' | ha'
          · rcases hcl a ha' b hb with h | h
            · exact Or.inl (List.mem_append.mpr (Or.inl h))
            · rcases List.mem_cons.mp h with h | h
              · subst h; exact Or.inl (by simp)
              · exact Or.inr h
          · simp at ha'
            subst ha'
            unfold epsStep at hb
            rw [out_ge g hlt] at hb
            simp at hb

theorem closed_addNodeToSet (g : Graph) {s : List Nat} (hs : Closed g s) (n : Nat) :
    Closed g (addNodeToSet g s n) := by
  have h := foldl_cl_closed g (unvisited g s) [n] s (Nat.le_refl _)
    (fun a ha b hb => Or.inl (hs a ha b hb))
  simpa using h

theorem reach_mem_of_closed (g : Graph) {s : List Nat} (hs : Closed g s) :
    ∀ a b, EpsReach g a b → a ∈ s → b ∈ s := by
  intro a b h
  induction h with
  | refl => exact fun h => h
  | tail hab hbc ih => intro ha; exact hs _ (ih ha) _ hbc

theorem mem_addNodeToSet_iff (g : Graph) {s : List Nat} (hs : Closed g s) (n x : Nat) :
    x ∈ addNodeToSet g s n ↔ x ∈ s ∨ EpsReach g n x := by
  constructor
  · exact fun h => addNodeToSet_sound g (unvisited g s) s n x (Nat.le_refl _) h
  · rintro (h | h)
    · exact mem_addNodeToSet_of_mem g s n x h
    · exact reach_mem_of_closed g (closed_addNodeToSet g hs n) n x h (mem_addNodeToSet_self g s n)

/-- One consuming edge labeled with the character `c`. -/
def charStep (g : Graph) (c : Char) (a b : Nat) : Prop := (String.mk [c], b) ∈ out g a

/-- Modelled from the spec: declarative acceptance paths.  `Consume g a s x`
holds when the automaton can go from node `a` to node `x` consuming exactly
the characters `s` in order, taking epsilon edges freely. -/
inductive Consume (g : Graph) : Nat → List Char → Nat → Prop where
  | refl (a : Nat) : Consume g a [] a
  | eps {a b : Nat} {s : List Char} {x : Nat} :
      epsStep g a b → Consume g b s x → Consume g a s x
  | chr {a b : Nat} {c : Char} {s : List Char} {x : Nat} :
      charStep g c a b → Consume g b s x → Consume g a (c :: s) x

/-- Modelled from the spec: whole-string acceptance.  The entire input is
consumed along a path that ends in a node with zero outgoing edges (the
accepting sentinel). -/
def Accepts (g : Graph) (startNode : Nat) (s : List Char) : Prop :=
  ∃ x, Consume g startNode s x ∧ out g x = []

theorem consume_empty (g : Graph) :
    ∀ {a : Nat} {s : List Char} {x : Nat}, Consume g a s x → s = [] → EpsReach g a x := by
  intro a s x h
  induction h with
  | refl a => intro hs; exact Relation.ReflTransGen.refl
  | eps hstep hc ih => intro hs; exact Relation.ReflTransGen.head hstep (ih hs)
  | chr hcs hc ih => intro hs; simp at hs

theorem consume_eps_prepend (g : Graph) {a b : Nat} {s : List Char} {x : Nat}
    (h : EpsReach g a b) (hc : Consume g b s x) : Consume g a s x := by
  induction h using Relation.ReflTransGen.head_induction_on with
  | refl => exact hc
  | head hstep _ ih => exact Consume.eps hstep ih

theorem consume_nil_iff (g : Graph) (a x : Nat) : Consume g a [] x ↔ EpsReach g a x := by
  constructor
  · intro h; exact consume_empty g h rfl
  · intro h; exact consume_eps_prepend g h (Consume.refl x)

theorem consume_head (g : Graph) :
    ∀ {a : Nat} {s0 : List Char} {x : Nat}, Consume g a s0 x →
      ∀ {c : Char} {s : List Char}, s0 = c :: s →
      ∃ m b, EpsReach g a m ∧ charStep g c m b ∧ Consume g b s x := by
  intro a s0 x h
  induction h with
  | refl a => intro c s hs; simp at hs
  | eps hstep hc ih =>
    intro c s hs
    obtain ⟨m, b, hr, hcs, hco⟩ := ih hs
    exact ⟨m, b, Relation.ReflTransGen.head hstep hr, hcs, hco⟩
  | chr hcs hc ih =>
    intro c s hs
    rw [List.cons.injEq] at hs
    obtain ⟨rfl, rfl⟩ := hs
    exact ⟨_, _, Relation.ReflTransGen.refl, hcs, hc⟩

/-- The inner edge fold of the matcher for one source node. -/
def stepEdges (g : Graph) (c : Char) (es : List (String × Nat)) (acc : List Nat) : List Nat :=
  es.foldl (fun acc e => if String.mk [c] = e.1 then addNodeToSet g acc e.2 else acc) acc

/-- The per-character step of the matcher: collect the epsilon closures of the
targets of matching edges out of every current node. -/
def stepChar (g : Graph) (ns : List Nat) (c : Char) : List Nat :=
  ns.foldl (fun newNs n => stepEdges g c (out g n) newNs) []

theorem matchNfa_eq (g : Graph) (s0 : Nat) (str : String) :
    matchNfa g s0 str =
      (str.data.foldl (stepChar g) (addNodeToSet g [] s0)).any
        (fun n => (out g n).isEmpty) := rfl

theorem stepEdges_spec (g : Graph) (c : Char) :
    ∀ (es : List (String × Nat)) (acc : List Nat), Closed g acc →
      Closed g (stepEdges g c es acc) ∧
      (∀ x, x ∈ stepEdges g c es acc ↔
        x ∈ acc ∨ ∃ e ∈ es, String.mk [c] = e.1 ∧ EpsReach g e.2 x) := by
  intro es
  induction es with
  | nil => intro acc hacc; exact ⟨hacc, fun x => by simp [stepEdges]⟩
  | cons e es ihe =>
    intro acc hacc
    simp only [stepEdges, List.foldl_cons] at *
    by_cases hc : String.mk [c] = e.1
    · rw [if_pos hc]
      obtain ⟨h1, h2⟩ := ihe (addNodeToSet g acc e.2) (closed_addNodeToSet g hacc e.2)
      refine ⟨h1, fun x => ?_⟩
      rw [h2 x, mem_addNodeToSet_iff g hacc]
      constructor
      · rintro ((h | h) | h)
        · exact Or.inl h
        · exact Or.inr ⟨e, by simp, hc, h⟩
        · obtain ⟨e', he', hce', hre'⟩ := h
          exact Or.inr ⟨e', by simp [he'], hce', hre'⟩
      · rintro (h | ⟨e', he', hce', hre'⟩)
        · exact Or.inl (Or.inl h)
        · rcases List.mem_cons.mp he' with h' | h'
          · subst h'; exact Or.inl (Or.inr hre')
          · exact Or.inr ⟨e', h', hce', hre'⟩
    · rw [if_neg hc]
      obtain ⟨h1, h2⟩ := ihe acc hacc
      refine ⟨h1, fun x => ?_⟩
      rw [h2 x]
      constructor
      · rintro (h | ⟨e', he', hce', hre'⟩)
        · exact Or.inl h
        · exact Or.inr ⟨e', by simp [he'], hce', hre'⟩
      · rintro (h | ⟨e', he', hce', hre'⟩)
        · exact Or.inl h
        · rcases List.mem_cons.mp he' with h' | h'
          · subst h'; exact absurd hce' hc
          · exact Or.inr ⟨e', h', hce', hre'⟩

theorem stepChar_spec (g : Graph) (c : Char) (ns : List Nat) :
    Closed g (stepChar g ns c) ∧
      (∀ x, x ∈ stepChar g ns c ↔
        ∃ n ∈ ns, ∃ e ∈ out g n, String.mk [c] = e.1 ∧ EpsReach g e.2 x) := by
  have main : ∀ (l : List Nat) (acc : List Nat), Closed g acc →
      Closed g (l.foldl (fun newNs n => stepEdges g c (out g n) newNs) acc) ∧
      (∀ x, x ∈ l.foldl (fun newNs n => stepEdges g c (out g n) newNs) acc ↔
        x ∈ acc ∨ ∃ n ∈ l, ∃ e ∈ out g n, String.mk [c] = e.1 ∧ EpsReach g e.2 x) := by
    intro l
    induction l with
    | nil => intro acc hacc; exact ⟨hacc, fun x => by simp⟩
    | cons n l ihl =>
      intro acc hacc
      simp only [List.foldl_cons]
      obtain ⟨hc1, hc2⟩ := stepEdges_spec g c (out g n) acc hacc
      obtain ⟨h1, h2⟩ := ihl (stepEdges g c (out g n) acc) hc1
      refine ⟨h1, fun x => ?_⟩
      rw [h2 x, hc2 x]
      constructor
      · rintro ((h | h) | h)
        · exact Or.inl h
        · obtain ⟨e, he, hce, hre⟩ := h
          exact Or.inr ⟨n, by simp, e, he, hce, hre⟩
        · obtain ⟨n', hn', e, he, hce, hre⟩ := h
          exact Or.inr ⟨n', by simp [hn'], e, he, hce, hre⟩
      · rintro (h | ⟨n', hn', e, he, hce, hre⟩)
        · exact Or.inl (Or.inl h)
        · rcases List.mem_cons.mp hn' with h' | h'
          · subst h'; exact Or.inl (Or.inr ⟨e, he, hce, hre⟩)
          · exact Or.inr ⟨n', h', e, he, hce, hre⟩
  have h := main ns [] (by intro a ha; simp at ha)
  unfold stepChar
  refine ⟨h.1, fun x => ?_⟩
  rw [(h.2 x)]
  simp

theorem foldl_stepChar_spec (g : Graph) :
    ∀ (str : List Char) (ns : List Nat), Closed g ns →
      ∀ x, x ∈ str.foldl (stepChar g) ns ↔ ∃ a ∈ ns, Consume g a str x := by
  intro str
  induction str with
  | nil =>
    intro ns hns x
    simp only [List.foldl_nil]
    constructor
    · intro hx; exact ⟨x, hx, Consume.refl x⟩
    · rintro ⟨a, ha, hc⟩
      exact reach_mem_of_closed g hns a x (consume_empty g hc rfl) ha
  | cons c rest ih =>
    intro ns hns x
    simp only [List.foldl_cons]
    rw [ih (stepChar g ns c) (stepChar_spec g c ns).1 x]
    constructor
    · rintro ⟨b, hb, hcons⟩
      rw [(stepChar_spec g c ns).2 b] at hb
      obtain ⟨n, hn, e, he, hlbl, hreach⟩ := hb
      refine ⟨n, hn, ?_⟩
      have hcs : charStep g c n e.2 := by
        unfold charStep
        rw [hlbl]
        simpa using he
      exact Consume.chr hcs (consume_eps_prepend g hreach hcons)
    · rintro ⟨a, ha, hcons⟩
      obtain ⟨m, b, hream, hcs, hrest⟩ := consume_head g hcons rfl
      refine ⟨b, ?_, hrest⟩
      rw [(stepChar_spec g c ns).2 b]
      have hm : m ∈ ns := reach_mem_of_closed g hns a m hream ha
      exact ⟨m, hm, (String.mk [c], b), hcs, rfl, Relation.ReflTransGen.refl⟩

theorem matchNfa_iff_accepts (g : Graph) (s0 : Nat) (str : String) :
    matchNfa g s0 str = true ↔ Accepts g s0 str.data := by
  rw [matchNfa_eq, List.any_eq_true]
  have hnil : Closed g ([] : List Nat) := by intro a ha; simp at ha
  have hns0 : Closed g (addNodeToSet g [] s0) := closed_addNodeToSet g hnil s0
  constructor
  · rintro ⟨x, hx, hempty⟩
    rw [foldl_stepChar_spec g str.data _ hns0 x] at hx
    obtain ⟨a, ha, hcons⟩ := hx
    have hreach : EpsReach g s0 a := by
      rcases (mem_addNodeToSet_iff g hnil s0 a).mp ha with h | h
      · simp at h
      · exact h
    refine ⟨x, consume_eps_prepend g hreach hcons, ?_⟩
    simpa [List.isEmpty_iff] using hempty
  · rintro ⟨x, hcons, hempty⟩
    refine ⟨x, ?_, by simp [hempty]⟩
    rw [foldl_stepChar_spec g str.data _ hns0 x]
    exact ⟨s0, mem_addNodeToSet_self g [] s0, hcons⟩

/-- C4: the matcher decides whole-string acceptance: for every automaton and
input, `match` returns true iff the entire input is consumed along a path
ending at a node with zero outgoing edges; reaching an accepting state on a
proper prefix does not count, as witnessed by the automaton of the parsed
pattern a* rejecting "aab" while accepting "aa". -/
theorem claim_C4_whole_string_semantics :
    (∀ (g : Graph) (startNode : Nat) (str : String),
      matchNfa g startNode str = true ↔ Accepts g startNode str.data) ∧
    parse "a*" = .ok (Node.star (Node.atom "a")) ∧
    matchNfa (makeNfa (Node.star (Node.atom "a"))) 0 "aab" = false ∧
    matchNfa (makeNfa (Node.star (Node.atom "a"))) 0 "aa" = true := by
  refine ⟨matchNfa_iff_accepts, ?_, by decide, by decide⟩
  simp [parse, p, simplify_star_cases, simplify_atom]

mutual

/-- Every alternation node in the tree has at least one child.  The parser can
only build alternations with one sequence per alternative, so its output
satisfies this hereditarily. -/
def altsOk : Node → Bool
  | .atom _ => true
  | .seq v => altsOkList v
  | .alt v => !v.isEmpty && altsOkList v
  | .star x => altsOk x

def altsOkList : List Node → Bool
  | [] => true
  | x :: xs => altsOk x && altsOkList xs

end

mutual

/-- Sufficient condition for the construction invariant: every sequence and
every alternation in the tree is nonempty, so each fragment pushes at least
one edge out of its start node. -/
def buildGood : Node → Bool
  | .atom _ => true
  | .seq v => !v.isEmpty && buildGoodList v
  | .alt v => !v.isEmpty && buildGoodList v
  | .star x => buildGood x

def buildGoodList : List Node → Bool
  | [] => true
  | x :: xs => buildGood x && buildGoodList xs

end

theorem altsOkList_iff (l : List Node) :
    altsOkList l = true ↔ ∀ x ∈ l, altsOk x = true := by
  induction l with
  | nil => simp [altsOkList]
  | cons x xs ih => simp [altsOkList, ih]

theorem buildGoodList_iff (l : List Node) :
    buildGoodList l = true ↔ ∀ x ∈ l, buildGood x = true := by
  induction l with
  | nil => simp [buildGoodList]
  | cons x xs ih => simp [buildGoodList, ih]

theorem p_altsOk :
    ∀ (fuel : Nat) (rest : List Char) (node : Option Node) (seq : List Node)
      (alt : List (List Node)) (r : List Char) (n : Node),
      (∀ m, node = some m → altsOk m = true) →
      (∀ m ∈ seq, altsOk m = true) →
      (∀ l ∈ alt, ∀ m ∈ l, altsOk m = true) →
      p fuel rest node seq alt = .ok (r, n) → altsOk n = true := by
  intro fuel
  induction fuel with
  | zero => intro rest node seq alt r n _ _ _ hp; simp [p] at hp
  | succ fuel ih =>
    intro rest node seq alt r n hnode hseq halt hp
    cases rest with
    | nil => simp [p] at hp
    | cons c cs =>
      simp only [p] at hp
      by_cases hc1 : c = '('
      · rw [if_pos hc1] at hp
        cases h1 : p fuel cs none [] [] with
        | error e => rw [h1] at hp; simp at hp
        | ok v1 =>
          obtain ⟨r1, n1⟩ := v1
          rw [h1] at hp
          have hn1 : altsOk n1 = true :=
            ih cs none [] [] r1 n1 (by simp) (by simp) (by simp) h1
          refine ih r1.tail (some n1) (seq ++ [n1]) alt r n ?_ ?_ halt hp
          · intro m hm
            rw [Option.some.injEq] at hm
            rw [← hm]
            exact hn1
          · intro m hm
            rcases List.mem_append.mp hm with h | h
            · exact hseq m h
            · simp at h; rw [h]; exact hn1
      · rw [if_neg hc1] at hp
        by_cases hc2 : c = ')'
        · rw [if_pos hc2] at hp
          split_ifs at hp with hic1 hic2
          · simp only [Except.ok.injEq, Prod.mk.injEq] at hp
            rw [← hp.2]
            simp only [altsOk, Bool.and_eq_true, altsOkList_iff]
            constructor
            · simp
            · intro x hx
              rw [List.mem_map] at hx
              obtain ⟨l, hl, rfl⟩ := hx
              simp only [altsOk, altsOkList_iff]
              intro m hm
              rcases List.mem_append.mp hl with h | h
              · exact halt l h m hm
              · simp at h; subst h; exact hseq m hm
          · simp only [Except.ok.injEq, Prod.mk.injEq] at hp
            rw [← hp.2]
            simp only [altsOk, altsOkList_iff]
            exact hseq
          · cases node with
            | some n0 =>
              simp only [Except.ok.injEq, Prod.mk.injEq] at hp
              rw [← hp.2]
              exact hnode n0 rfl
            | none => simp at hp
        · rw [if_neg hc2] at hp
          by_cases hc3 : c = '*'
          · rw [if_pos hc3] at hp
            cases node with
            | none => simp at hp
            | some n0 =>
              have hn0 : altsOk n0 = true := hnode n0 rfl
              refine ih cs (some (Node.star n0))
                (seq.set (seq.length - 1) (Node.star n0)) alt r n ?_ ?_ halt hp
              · intro m hm
                rw [Option.some.injEq] at hm
                rw [← hm]
                simpa [altsOk] using hn0
              · intro m hm
                rcases List.mem_or_eq_of_mem_set hm with h | h
                · exact hseq m h
                · rw [h]; simpa [altsOk] using hn0
          · rw [if_neg hc3] at hp
            by_cases hc4 : c = '|'
            · rw [if_pos hc4] at hp
              refine ih cs node [] (alt ++ [seq]) r n hnode (by simp) ?_ hp
              intro l hl m hm
              rcases List.mem_append.mp hl with h | h
              · exact halt l h m hm
              · simp at h; subst h; exact hseq m hm
            · rw [if_neg hc4] at hp
              refine ih cs (some (Node.atom (String.mk [c])))
                (seq ++ [Node.atom (String.mk [c])]) alt r n ?_ ?_ halt hp
              · intro m hm
                rw [Option.some.injEq] at hm
                rw [← hm]
                rfl
              · intro m hm
                rcases List.mem_append.mp hm with h | h
                · exact hseq m h
                · simp at h; rw [h]; rfl

theorem altsOk_simplify_bounded :
    ∀ n t, size t ≤ n → altsOk t = true → altsOk (simplify t) = true := by
  intro n
  induction n with
  | zero => intro t ht; have := size_pos t; omega
  | succ n ih =>
    intro t ht hok
    cases t with
    | atom v => rw [simplify_atom]; exact hok
    | alt v =>
      rw [simplify_alt]
      simp only [altsOk, Bool.and_eq_true, altsOkList_iff] at hok ⊢
      obtain ⟨hne, hch⟩ := hok
      refine ⟨by simpa using hne, ?_⟩
      intro x hx
      rw [List.mem_map] at hx
      obtain ⟨c, hc, rfl⟩ := hx
      have hsz : size c ≤ n := by
        have h1 := size_le_sizeList hc
        simp only [size] at ht
        omega
      exact ih c hsz (hch c hc)
    | star x =>
      simp only [altsOk] at hok
      have hxn : size x ≤ n := by simp only [size] at ht; omega
      have hx : altsOk (simplify x) = true := ih x hxn hok
      rw [simplify_star_cases]
      cases hs : simplify x with
      | star y =>
        rw [hs] at hx
        simpa [altsOk] using hx
      | atom a => rfl
      | seq l =>
        rw [hs] at hx
        simpa [altsOk] using hx
      | alt l =>
        rw [hs] at hx
        simpa [altsOk] using hx
    | seq v =>
      simp only [altsOk, altsOkList_iff] at hok
      have hchild : ∀ c ∈ v, altsOk (simplify c) = true := by
        intro c hc
        have h1 := size_le_sizeList hc
        simp only [size] at ht
        exact ih c (by omega) (hok c hc)
      rw [simplify_seq_cases]
      cases hm : v.map simplify with
      | nil => rfl
      | cons a l' =>
        cases l' with
        | nil =>
          have hv : ∃ c, v = [c] ∧ simplify c = a := by
            cases v with
            | nil => simp at hm
            | cons c cs =>
              cases cs with
              | nil => simp at hm; exact ⟨c, rfl, hm⟩
              | cons d ds => simp at hm
          obtain ⟨c, hv, ha⟩ := hv
          subst hv
          have hsz : size a ≤ n := by
            have h1 := size_simplify_le c
            rw [ha] at h1
            simp only [size, sizeList] at ht
            have := size_pos c
            omega
          exact ih a hsz (ha ▸ hchild c (by simp))
        | cons b l'' =>
          simp only [altsOk, altsOkList_iff]
          intro x hx
          have hx2 : x ∈ v.map simplify := by rw [hm]; exact hx
          rw [List.mem_map] at hx2
          obtain ⟨c, hc, rfl⟩ := hx2
          exact hchild c hc

theorem buildGood_of_canonical_altsOk :
    ∀ n t, size t ≤ n → canonical t = true → altsOk t = true → buildGood t = true := by
  intro n
  induction n with
  | zero => intro t ht; have := size_pos t; omega
  | succ n ih =>
    intro t ht hcan hok
    cases t with
    | atom v => rfl
    | alt v =>
      simp only [canonical, canonicalList_iff] at hcan
      simp only [altsOk, Bool.and_eq_true, altsOkList_iff] at hok
      simp only [buildGood, Bool.and_eq_true, buildGoodList_iff]
      refine ⟨hok.1, ?_⟩
      intro x hx
      have hsz : size x ≤ n := by
        have h1 := size_le_sizeList hx
        simp only [size] at ht
        omega
      exact ih x hsz (hcan x hx) (hok.2 x hx)
    | seq v =>
      simp only [canonical, Bool.and_eq_true, decide_eq_true_eq, canonicalList_iff] at hcan
      simp only [altsOk, altsOkList_iff] at hok
      simp only [buildGood, Bool.and_eq_true, buildGoodList_iff]
      constructor
      · cases v with
        | nil => simp at hcan
        | cons a l => simp
      · intro x hx
        have hsz : size x ≤ n := by
          have h1 := size_le_sizeList hx
          simp only [size] at ht
          omega
        exact ih x hsz (hcan.2 x hx) (hok x hx)
    | star x =>
      simp only [canonical, Bool.and_eq_true] at hcan
      simp only [altsOk] at hok
      simp only [buildGood]
      have hsz : size x ≤ n := by simp only [size] at ht; omega
      exact ih x hsz hcan.2 hok

theorem parse_buildGood {s : String} {ast : Node} (h : parse s = .ok ast) :
    buildGood ast = true ∧ canonical ast = true := by
  unfold parse at h
  cases hp : p (s.data ++ [')']).length (s.data ++ [')']) none [] [] with
  | error e => rw [hp] at h; simp at h
  | ok v =>
    obtain ⟨r, n⟩ := v
    rw [hp] at h
    by_cases hr : r.length = 1
    · simp only [hr, if_true, Except.ok.injEq] at h
      have hok : altsOk n = true :=
        p_altsOk _ _ none [] [] r n (by simp) (by simp) (by simp) hp
      have hok2 : altsOk ast = true := by
        rw [← h]
        exact altsOk_simplify_bounded (size n) n (Nat.le_refl _) hok
      have hcan : canonical ast = true := by
        rw [← h]
        exact canonical_simplify n
      exact ⟨buildGood_of_canonical_altsOk (size ast) ast (Nat.le_refl _) hcan hok2, hcan⟩
    · simp [hr] at h

def outdeg (g : Graph) (i : Nat) : Nat := (out g i).length

theorem out_eq_getElem? (g : Graph) (i : Nat) : out g i = (g[i]?).getD [] := by
  simp [out, List.getD_eq_getElem?_getD]

theorem length_addEdge (g : Graph) (s : Nat) (v : String) (t : Nat) :
    (addEdge g s v t).length = g.length := by
  simp [addEdge]

theorem out_addEdge_self (g : Graph) {s : Nat} (hs : s < g.length) (v : String) (t : Nat) :
    out (addEdge g s v t) s = out g s ++ [(v, t)] := by
  rw [out_eq_getElem?]
  unfold addEdge
  rw [List.getElem?_set_self hs]
  rfl

theorem out_addEdge_ne (g : Graph) {s i : Nat} (h : s ≠ i) (v : String) (t : Nat) :
    out (addEdge g s v t) i = out g i := by
  rw [out_eq_getElem?, out_eq_getElem? g]
  unfold addEdge
  rw [List.getElem?_set_ne h]

theorem out_append_lt (g h : Graph) {i : Nat} (hi : i < g.length) :
    out (g ++ h) i = out g i := by
  rw [out_eq_getElem?, out_eq_getElem? g, List.getElem?_append_left hi]

/-- Construction invariant of the NFA builder, proved for the three mutually
recursive builders at once: lengths only grow; the only pre-existing nodes
receiving new edges are fragment start nodes; every fragment pushes at least
one edge out of its start; and every freshly allocated node ends with at
least one outgoing edge. -/
theorem makeEdge_inv : ∀ N : Nat,
    (∀ (t : Node) (s e : Nat) (g : Graph), 2 * size t ≤ N → buildGood t = true →
      s < g.length → e < g.length →
      (g.length ≤ (makeEdge t s e g).length ∧
       (∀ i, i < g.length → i ≠ s → out (makeEdge t s e g) i = out g i) ∧
       outdeg g s < outdeg (makeEdge t s e g) s ∧
       (∀ i, g.length ≤ i → i < (makeEdge t s e g).length →
         1 ≤ outdeg (makeEdge t s e g) i))) ∧
    (∀ (cs : List Node) (nxs : List Nat) (last : Nat) (g : Graph),
      2 * sizeList cs + 1 ≤ N → buildGoodList cs = true →
      last < g.length → (∀ nx ∈ nxs, nx < g.length) →
      (g.length ≤ (makeSeqEdges cs nxs last g).length ∧
       (∀ i, i < g.length → i ≠ last → i ∉ nxs.take (cs.length - 1) →
         out (makeSeqEdges cs nxs last g) i = out g i) ∧
       (∀ i, i < g.length → outdeg g i ≤ outdeg (makeSeqEdges cs nxs last g) i) ∧
       (cs ≠ [] → nxs ≠ [] →
         outdeg g last < outdeg (makeSeqEdges cs nxs last g) last) ∧
       (∀ i, g.length ≤ i → i < (makeSeqEdges cs nxs last g).length →
         1 ≤ outdeg (makeSeqEdges cs nxs last g) i) ∧
       (∀ j, j + 1 < cs.length → j + 1 < nxs.length →
         1 ≤ outdeg (makeSeqEdges cs nxs last g) (nxs.getD j 0)))) ∧
    (∀ (cs : List Node) (s e : Nat) (g : Graph),
      2 * sizeList cs + 1 ≤ N → buildGoodList cs = true →
      s < g.length → e < g.length →
      (g.length ≤ (makeAltEdges cs s e g).length ∧
       (∀ i, i < g.length → i ≠ s → out (makeAltEdges cs s e g) i = out g i) ∧
       (cs ≠ [] → outdeg g s < outdeg (makeAltEdges cs s e g) s) ∧
       (∀ i, g.length ≤ i → i < (makeAltEdges cs s e g).length →
         1 ≤ outdeg (makeAltEdges cs s e g) i))) := by
  intro N
  induction N with
  | zero =>
    refine ⟨?_, ?_, ?_⟩
    · intro t s e g hmz; have := size_pos t; omega
    · intro cs nxs last g hmz; omega
    · intro cs s e g hmz; omega
  | succ N ihN =>
    obtain ⟨ihE, ihS, ihA⟩ := ihN
    refine ⟨?_, ?_, ?_⟩
    · -- makeEdge
      intro t s e g hm hgood hs he
      cases t with
      | atom v =>
        simp only [makeEdge]
        refine ⟨by rw [length_addEdge], ?_, ?_, ?_⟩
        · intro i hi hne
          exact out_addEdge_ne g (fun h => hne h.symm) v e
        · rw [outdeg, outdeg, out_addEdge_self g hs]
          simp
        · intro i hi1 hi2
          rw [length_addEdge] at hi2
          omega
      | alt v =>
        simp only [makeEdge]
        simp only [buildGood, Bool.and_eq_true] at hgood
        have hvne : v ≠ [] := by
          cases v
          · simp at hgood
          · simp
        have hA := ihA v s e g (by simp only [size] at hm; omega) hgood.2 hs he
        exact ⟨hA.1, hA.2.1, hA.2.2.1 hvne, hA.2.2.2⟩
      | star x =>
        simp only [makeEdge]
        simp only [buildGood] at hgood
        have hm' : 2 * size x ≤ N := by simp only [size] at hm; omega
        have hlen0 : (g ++ [([] : List (String × Nat))]).length = g.length + 1 := by simp
        have hlen1 : (addEdge (g ++ [[]]) s "" g.length).length = g.length + 1 := by
          rw [length_addEdge]; exact hlen0
        obtain ⟨e1, e2, e3, e4⟩ := ihE x g.length g.length
          (addEdge (g ++ [[]]) s "" g.length) hm' hgood (by omega) (by omega)
        rw [hlen1] at e1 e2 e4
        have hmidlt : g.length < (makeEdge x g.length g.length
            (addEdge (g ++ [[]]) s "" g.length)).length := by omega
        refine ⟨?_, ?_, ?_, ?_⟩
        · rw [length_addEdge]; omega
        · intro i hi hne
          rw [out_addEdge_ne _ (by omega), e2 i (by omega) (by omega),
            out_addEdge_ne _ (fun h => hne h.symm), out_append_lt g _ hi]
        · have c1 : out (addEdge (g ++ [[]]) s "" g.length) s =
              out g s ++ [("", g.length)] := by
            rw [out_addEdge_self _ (by omega), out_append_lt g _ hs]
          have c3 : out (makeEdge x g.length g.length (addEdge (g ++ [[]]) s "" g.length)) s =
              out (addEdge (g ++ [[]]) s "" g.length) s := e2 s (by omega) (by omega)
          have c4 : out (addEdge (makeEdge x g.length g.length
              (addEdge (g ++ [[]]) s "" g.length)) g.length "" e) s =
              out (makeEdge x g.length g.length (addEdge (g ++ [[]]) s "" g.length)) s :=
            out_addEdge_ne _ (by omega) _ _
          rw [outdeg, outdeg, c4, c3, c1]
          simp
        · intro i hi1 hi2
          rw [length_addEdge] at hi2
          by_cases hmid : i = g.length
          · subst hmid
            rw [outdeg, out_addEdge_self _ hmidlt]
            simp
          · rw [outdeg, out_addEdge_ne _ (fun h => hmid h.symm)]
            exact e4 i (by omega) hi2
      | seq v =>
        simp only [makeEdge]
        simp only [buildGood, Bool.and_eq_true] at hgood
        have hvne : v ≠ [] := by
          cases v
          · simp at hgood
          · simp
        have hvlen : 1 ≤ v.length := by
          cases v
          · simp at hvne
          · simp
        have hm' : 2 * sizeList v + 1 ≤ N := by simp only [size] at hm; omega
        have hlenG1 : (g ++ List.replicate (v.length - 1) ([] : List (String × Nat))).length =
            g.length + (v.length - 1) := by simp
        have hnx : ∀ nx ∈ (List.range (v.length - 1)).map (g.length + ·) ++ [e],
            nx < (g ++ List.replicate (v.length - 1) ([] : List (String × Nat))).length := by
          intro nx hnx
          rw [hlenG1]
          rcases List.mem_append.mp hnx with h | h
          · rw [List.mem_map] at h
            obtain ⟨j, hj, rfl⟩ := h
            rw [List.mem_range] at hj
            omega
          · simp at h
            omega
        obtain ⟨s1, s2, s3, s4, s5, s6⟩ := ihS v
          ((List.range (v.length - 1)).map (g.length + ·) ++ [e]) s
          (g ++ List.replicate (v.length - 1) []) hm' hgood.2
          (by rw [hlenG1]; omega) hnx
        rw [hlenG1] at s1 s2 s3 s5
        have htake : ((List.range (v.length - 1)).map (g.length + ·) ++ [e]).take
            (v.length - 1) = (List.range (v.length - 1)).map (g.length + ·) :=
          List.take_left' (by simp)
        refine ⟨by omega, ?_, ?_, ?_⟩
        · intro i hi hne
          rw [s2 i (by omega) hne ?_, out_append_lt g _ hi]
          rw [htake]
          intro hmem
          rw [List.mem_map] at hmem
          obtain ⟨j, hj, hij⟩ := hmem
          omega
        · have h4 := s4 hvne (by simp)
          have heq : out (g ++ List.replicate (v.length - 1) ([] : List (String × Nat))) s =
              out g s := out_append_lt g _ hs
          rw [outdeg, outdeg] at h4 ⊢
          rw [heq] at h4
          exact h4
        · intro i hi1 hi2
          by_cases hiG1 : i < g.length + (v.length - 1)
          · have hj : i - g.length + 1 < v.length := by omega
            have hj2 : i - g.length + 1 <
                (((List.range (v.length - 1)).map (g.length + ·)) ++ [e]).length := by
              simp
              omega
            have hgetD : (((List.range (v.length - 1)).map (g.length + ·)) ++ [e]).getD
                (i - g.length) 0 = i := by
              rw [List.getD_eq_getElem?_getD, List.getElem?_append_left (by simp; omega),
                List.getElem?_map, List.getElem?_range (by omega)]
              simp
              omega
            have := s6 (i - g.length) hj hj2
            rw [hgetD] at this
            exact this
          · exact s5 i (by omega) hi2
    · -- makeSeqEdges
      intro cs nxs last g hm hgood hlast hnxs
      cases cs with
      | nil =>
        simp only [makeSeqEdges]
        refine ⟨Nat.le_refl _, fun i _ _ _ => trivial, fun i _ => Nat.le_refl _, ?_, ?_, ?_⟩
        · intro h; exact absurd rfl h
        · intro i h1 h2; omega
        · intro j hj _; simp at hj
      | cons c cs' =>
        cases nxs with
        | nil =>
          simp only [makeSeqEdges]
          refine ⟨Nat.le_refl _, fun i _ _ _ => trivial, fun i _ => Nat.le_refl _, ?_, ?_, ?_⟩
          · intro _ h; exact absurd rfl h
          · intro i h1 h2; omega
          · intro j _ hj; simp at hj
        | cons nx nxs' =>
          simp only [makeSeqEdges]
          simp only [buildGoodList, Bool.and_eq_true] at hgood
          have hmc : 2 * size c ≤ N := by simp only [sizeList] at hm; omega
          have hms : 2 * sizeList cs' + 1 ≤ N := by
            simp only [sizeList] at hm
            have := size_pos c
            omega
          have hnx : nx < g.length := hnxs nx (by simp)
          obtain ⟨e1, e2, e3, e4⟩ := ihE c last nx g hmc hgood.1 hlast hnx
          have emono : ∀ i, i < g.length → outdeg g i ≤ outdeg (makeEdge c last nx g) i := by
            intro i hi
            by_cases hil : i = last
            · subst hil; omega
            · rw [outdeg, outdeg, e2 i hi hil]
          obtain ⟨t1, t2, t3, t4, t5, t6⟩ := ihS cs' nxs' nx (makeEdge c last nx g) hms
            hgood.2 (by omega) (fun n' hn' => by have := hnxs n' (by simp [hn']); omega)
          refine ⟨by omega, ?_, ?_, ?_, ?_, ?_⟩
          · intro i hi hil htk
            cases cs' with
            | nil =>
              show out (makeSeqEdges [] nxs' nx (makeEdge c last nx g)) i = out g i
              simp only [makeSeqEdges]
              exact e2 i hi hil
            | cons c2 cs2 =>
              have htk2 : i ∉ nx :: nxs'.take ((c2 :: cs2).length - 1) := by
                intro hmem
                apply htk
                simp only [List.length_cons, Nat.add_sub_cancel]
                rw [List.take_succ_cons]
                simpa using hmem
              rw [t2 i (by omega) (fun h => htk2 (by rw [h]; exact List.mem_cons_self _ _))
                (fun h => htk2 (List.mem_cons_of_mem _ (by simpa using h)))]
              exact e2 i hi hil
          · intro i hi
            exact Nat.le_trans (emono i hi) (t3 i (by omega))
          · intro _ _
            exact Nat.lt_of_lt_of_le e3 (t3 last (by omega))
          · intro i hi1 hi2
            by_cases hiE : i < (makeEdge c last nx g).length
            · exact Nat.le_trans (e4 i hi1 hiE) (t3 i hiE)
            · exact t5 i (by omega) hi2
          · intro j hj1 hj2
            cases j with
            | zero =>
              have hcs' : cs' ≠ [] := by
                simp only [List.length_cons] at hj1
                intro h; subst h; simp at hj1
              have hnxs' : nxs' ≠ [] := by
                simp only [List.length_cons] at hj2
                intro h; subst h; simp at hj2
              have := t4 hcs' hnxs'
              simp only [List.getD_cons_zero]
              omega
            | succ j' =>
              simp only [List.getD_cons_succ]
              apply t6 j'
              · simp only [List.length_cons] at hj1; omega
              · simp only [List.length_cons] at hj2; omega
    · -- makeAltEdges
      intro cs s e g hm hgood hs he
      cases cs with
      | nil =>
        simp only [makeAltEdges]
        refine ⟨Nat.le_refl _, fun i _ _ => trivial, ?_, ?_⟩
        · intro h; exact absurd rfl h
        · intro i h1 h2; omega
      | cons c cs' =>
        simp only [makeAltEdges]
        simp only [buildGoodList, Bool.and_eq_true] at hgood
        have hmc : 2 * size c ≤ N := by simp only [sizeList] at hm; omega
        have hms : 2 * sizeList cs' + 1 ≤ N := by
          simp only [sizeList] at hm
          have := size_pos c
          omega
        obtain ⟨e1, e2, e3, e4⟩ := ihE c s e g hmc hgood.1 hs he
        obtain ⟨t1, t2, t3, t4⟩ := ihA cs' s e (makeEdge c s e g) hms hgood.2
          (by omega) (by omega)
        refine ⟨by omega, ?_, ?_, ?_⟩
        · intro i hi hne
          rw [t2 i (by omega) hne]
          exact e2 i hi hne
        · intro _
          cases cs' with
          | nil =>
            show outdeg g s < outdeg (makeAltEdges [] s e (makeEdge c s e g)) s
            simp only [makeAltEdges]
            exact e3
          | cons c2 cs2 =>
            have := t3 (by simp)
            omega
        · intro i hi1 hi2
          by_cases hiE : i < (makeEdge c s e g).length
          · have h1 := e4 i hi1 hiE
            rw [outdeg, t2 i hiE (by omega)]
            exact h1
          · exact t4 i (by omega) hi2

/-- The nodes the matcher would classify as accepting: indices with zero
outgoing edges. -/
def zeroOutNodes (g : Graph) : List Nat :=
  (List.range g.length).filter (fun i => (out g i).isEmpty)

theorem filter_range_eq_one :
    ∀ n, 2 ≤ n → ∀ pr : Nat → Bool, pr 0 = false → pr 1 = true →
      (∀ i, 2 ≤ i → i < n → pr i = false) → (List.range n).filter pr = [1] := by
  intro n
  induction n with
  | zero => intro h; omega
  | succ n ih =>
    intro h2 pr h0 h1 hrest
    by_cases hn : n = 1
    · subst hn
      have hr : List.range 2 = [0, 1] := rfl
      rw [hr]
      simp [List.filter, h0, h1]
    · have hn2 : 2 ≤ n := by omega
      rw [List.range_succ, List.filter_append,
        ih hn2 pr h0 h1 (fun i hi1 hi2 => hrest i hi1 (by omega))]
      have hpn : pr n = false := hrest n hn2 (by omega)
      simp [List.filter, hpn]

theorem makeNfa_zeroOut {ast : Node} (h : buildGood ast = true) :
    zeroOutNodes (makeNfa ast) = [1] := by
  unfold makeNfa zeroOutNodes
  obtain ⟨p1, p2, p3, p4⟩ := (makeEdge_inv (2 * size ast)).1 ast 0 1 [[], []]
    (Nat.le_refl _) h (by simp) (by simp)
  have hlen : 2 ≤ (makeEdge ast 0 1 [[], []]).length := by simpa using p1
  apply filter_range_eq_one _ hlen
  · have h0 : (0 : Nat) < outdeg (makeEdge ast 0 1 [[], []]) 0 := by
      have hz : outdeg ([[], []] : Graph) 0 = 0 := rfl
      omega
    rw [outdeg] at h0
    cases hv : out (makeEdge ast 0 1 [[], []]) 0 with
    | nil => rw [hv] at h0; simp at h0
    | cons a l => simp [hv]
  · have h1 : out (makeEdge ast 0 1 [[], []]) 1 = out ([[], []] : Graph) 1 :=
      p2 1 (by simp) (by omega)
    have h2 : out ([[], []] : Graph) 1 = [] := rfl
    simp [h1, h2]
  · intro i hi1 hi2
    have h4 := p4 i (by simpa using hi1) hi2
    rw [outdeg] at h4
    cases hv : out (makeEdge ast 0 1 [[], []]) i with
    | nil => rw [hv] at h4; simp at h4
    | cons a l => simp [hv]

/-- C5: for every AST returned by parse, the automaton built by makeNfa has
exactly one node with zero outgoing edges, the fresh top-level end node
(index 1); the start node and every interior node (sequence intermediates,
star middles, shared alternation endpoints) end with at least one outgoing
edge. -/
theorem claim_C5_unique_zero_out {s : String} {ast : Node} (h : parse s = .ok ast) :
    zeroOutNodes (makeNfa ast) = [1] :=
  makeNfa_zeroOut (parse_buildGood h).1

/-- C5 witness: the theorem applied to the parsed pattern "a". -/
theorem claim_C5_witness :
    parse "a" = .ok (Node.atom "a") ∧ zeroOutNodes (makeNfa (Node.atom "a")) = [1] :=
  ⟨by simp [parse, p, simplify_atom],
   @claim_C5_unique_zero_out "a" (Node.atom "a") (by simp [parse, p, simplify_atom])⟩

end Regex
